import Mathlib

set_option maxRecDepth 4000

/-!
Verification of the listing reconciliation core of alphavantage_merge.py.

Shallow embedding of the merge/reconcile pass.  Cell values are
Option String: none models a pandas missing value (NaN), some s a present
string value.  Python str applied to a pandas NaN float renders as the
three letters n a n, which strVal mirrors.  Uppercasing is modelled
character-wise (faithful on ASCII, which is all the listing data and all
test strings use).
-/

namespace AVMerge

/-- The columns of a listing snapshot row, in source column order. -/
inductive Field
  | symbol | name | exchange | assetType | ipoDate | delistingDate | status
deriving DecidableEq, Repr

/-- The ordered column index used by row_diffs when it walks a row. -/
def Field.all : List Field :=
  [.symbol, .name, .exchange, .assetType, .ipoDate, .delistingDate, .status]

/-- One listing record; none is a missing value (NaN). -/
structure Row where
  symbol : Option String
  name : Option String
  exchange : Option String
  assetType : Option String
  ipoDate : Option String
  delistingDate : Option String
  status : Option String
deriving DecidableEq, Repr

/-- Column access: the value a row holds at a column. -/
def Row.get (r : Row) : Field → Option String
  | .symbol => r.symbol
  | .name => r.name
  | .exchange => r.exchange
  | .assetType => r.assetType
  | .ipoDate => r.ipoDate
  | .delistingDate => r.delistingDate
  | .status => r.status

/-- Python str of a cell value: a missing value (NaN float) prints as the three letters n a n. -/
def strVal : Option String → String
  | none => "nan"
  | some s => s

/-- The pandas equality comparison on two cell values: missing values
compare unequal to everything, including each other. -/
def pdEq : Option String → Option String → Bool
  | some x, some y => x == y
  | _, _ => false

/-- row_diffs from the source: for each column, skip when both sides are
missing, record the pair of values when their str renderings differ. -/
def row_diffs (a b : Row) : List (Field × Option String × Option String) :=
  Field.all.filterMap fun col =>
    let av := a.get col
    let bv := b.get col
    if av.isNone && bv.isNone then none
    else if strVal av ≠ strVal bv then some (col, av, bv)
    else none

/-- Whether the set of keys of a diff is exactly the singleton ipoDate. -/
def ipoDateOnly (diffs : List (Field × Option String × Option String)) : Bool :=
  !diffs.isEmpty && diffs.all fun d => d.1 == Field.ipoDate

/-! Name normalization. -/

/-- A character the regular-expression substitution keeps: an uppercase letter, a digit, or a space. -/
def isAllowed (c : Char) : Bool :=
  ('A' ≤ c && c ≤ 'Z') || ('0' ≤ c && c ≤ '9') || c == ' '

/-- The whitespace-run substitution on a string whose only whitespace is
the space character (the preceding substitution removed every other
whitespace character): collapse each run of spaces to a single space. -/
def collapseSpaces : List Char → List Char
  | [] => []
  | [c] => [c]
  | a :: b :: t =>
      if a == ' ' && b == ' ' then collapseSpaces (b :: t)
      else a :: collapseSpaces (b :: t)

/-- Python strip on a string whose only whitespace is the space character. -/
def trimSpaces (l : List Char) : List Char :=
  ((l.dropWhile (· == ' ')).reverse.dropWhile (· == ' ')).reverse

/-- normalize_name from the source: the empty string for a missing value,
else uppercase, strip characters other than uppercase letters, digits and
spaces, collapse whitespace runs, trim. -/
def normalize_name (v : Option String) : String :=
  match v with
  | none => ""
  | some s =>
      String.mk (trimSpaces (collapseSpaces ((s.toList.map Char.toUpper).filter isAllowed)))

/-!
Ratcliff-Obershelp similarity, the ratio method of difflib.SequenceMatcher.

find_longest_match scans positions i in a and j in b and keeps the
longest common substring, preferring the earliest i, then the earliest j;
get_matching_blocks recurses on the pieces left and right of that block,
and ratio is twice the total matched size M divided by the sum of the two
lengths.  The recursion is expressed with a fuel argument bounded by the
sum of the lengths, which strictly decreases at every recursive call, so
the fuelled function computes the same total as the unbounded recursion. -/

/-- Length of the longest common prefix of two character lists. -/
def commonPrefixLen : List Char → List Char → Nat
  | a :: as, b :: bs => if a == b then commonPrefixLen as bs + 1 else 0
  | _, _ => 0

/-- find_longest_match over the whole of a and b (no junk): returns a
triple i, j, k such that the length-k slices of a at i and of b at j
coincide, k maximal, ties broken by smallest i then smallest j; the zero
triple when nothing matches. -/
def flm (a b : List Char) : Nat × Nat × Nat :=
  (List.range a.length).foldl
    (fun best i =>
      (List.range b.length).foldl
        (fun best j =>
          let k := commonPrefixLen (a.drop i) (b.drop j)
          if best.2.2 < k then (i, j, k) else best)
        best)
    (0, 0, 0)

/-- Total size M of the matching blocks, with explicit fuel. -/
def matchTotalF : Nat → List Char → List Char → Nat
  | 0, _, _ => 0
  | fuel + 1, a, b =>
      let m := flm a b
      if m.2.2 = 0 then 0
      else
        matchTotalF fuel (a.take m.1) (b.take m.2.1) + m.2.2 +
          matchTotalF fuel (a.drop (m.1 + m.2.2)) (b.drop (m.2.1 + m.2.2))

/-- Total size of the matching blocks of the two character lists. -/
def matchTotal (a b : List Char) : Nat :=
  matchTotalF (a.length + b.length) a b

/-- The SequenceMatcher ratio: twice the matched total divided by the sum
of the lengths, modelled over the rationals (mkRat n d is the rational
n / d; it is used rather than the division notation so that the kernel
can evaluate the definition on concrete inputs). -/
def smRatio (a b : List Char) : ℚ :=
  if a.length + b.length = 0 then 1
  else mkRat (2 * matchTotal a b) (a.length + b.length)

/-- name_similarity from the source (arguments are already normalized
names; an empty Python string is falsy). -/
def name_similarity (a b : String) : ℚ :=
  if a = "" && b = "" then 1
  else if a = "" || b = "" then 0
  else smRatio a.toList b.toList

/-! The per-row matching step. -/

/-- Whether an existing and an incoming row share the symbol-exchange key
under the pandas mask that conjoins equality on the symbol column and on
the exchange column. -/
def keyEq (existing incoming : Row) : Bool :=
  pdEq existing.symbol incoming.symbol && pdEq existing.exchange incoming.exchange

/-- The rows of the merged table selected by the mask: the candidate rows, in table order. -/
def candidates (merged : List Row) (incoming : Row) : List Row :=
  merged.filter fun m => keyEq m incoming

/-- One iteration of the candidate loop: no-diff rule, IPO-date-only
rule, then the name-similarity threshold of nine tenths (written with
mkRat so that the kernel can evaluate it; mkRat 9 10 is the rational
nine tenths, the 0.90 of the source). -/
def matchesB (existing incoming : Row) : Bool :=
  let diffs := row_diffs existing incoming
  if diffs.isEmpty then true
  else if ipoDateOnly diffs then true
  else
    decide (name_similarity (normalize_name (existing.get .name))
      (normalize_name (incoming.get .name)) ≥ mkRat 9 10)

/-- The conflict record appended for an unmatched incoming row. -/
structure ConflictRecord where
  symbol : Option String
  exchange : Option String
  source_file : String
  diffs : List (Field × Option String × Option String)
  existing_rows : List Row
  incoming_row : Row
deriving DecidableEq, Repr

/-- Processing of one incoming row against the merged table: append when
the candidate set is empty; otherwise scan the candidates in table order
for a match (first match wins); if none matches, emit a conflict whose
diff basis is the first candidate and whose existing rows are the full
candidate set.  The table is returned unchanged except for the append. -/
def processRow (merged : List Row) (src : String) (incoming : Row) :
    List Row × Option ConflictRecord :=
  match _h : candidates merged incoming with
  | [] => (merged ++ [incoming], none)
  | c :: cs =>
      if (c :: cs).any (fun e => matchesB e incoming) then (merged, none)
      else (merged, some ⟨incoming.symbol, incoming.exchange, src,
        row_diffs c incoming, c :: cs, incoming⟩)

/-- Reconciliation state: the merged table and the conflict log. -/
abbrev St := List Row × List ConflictRecord

/-- Fold step over one incoming row, accumulating conflicts. -/
def stepRow (src : String) (acc : St) (r : Row) : St :=
  let p := processRow acc.1 src r
  (p.1, acc.2 ++ p.2.toList)

/-- One snapshot: the seed branch copies the snapshot wholesale when the
merged table is empty, otherwise every row is processed in order. -/
def stepSnap (acc : St) (s : String × List Row) : St :=
  if acc.1.isEmpty then (s.2, acc.2)
  else s.2.foldl (stepRow s.1) acc

/-- The whole run over an ordered snapshot sequence. -/
def reconcile (snaps : List (String × List Row)) : St :=
  snaps.foldl stepSnap ([], [])

/-- The merged table after each row comparison inside one snapshot pass. -/
def statesRows (src : String) (st : St) : List Row → List (List Row)
  | [] => []
  | r :: rs => (stepRow src st r).1 :: statesRows src (stepRow src st r) rs

/-- Every intermediate merged table of a run: after the seed copy, and
after each individual row comparison of each later snapshot. -/
def statesAll (st : St) : List (String × List Row) → List (List Row)
  | [] => []
  | s :: ss =>
      (if st.1.isEmpty then [(stepSnap st s).1] else statesRows s.1 st s.2) ++
        statesAll (stepSnap st s) ss

/-! Concrete rows used by the counterexamples and witnesses. -/

/-- A listed security on the NYSE with issuer name ABC CORP. -/
def abcCorpRow : Row :=
  ⟨some "ABC", some "ABC CORP", some "NYSE", some "Stock",
    some "2001-01-01", none, some "Active"⟩

/-- The same security except for the longer issuer name ABC CORPORATION. -/
def abcCorporationRow : Row :=
  ⟨some "ABC", some "ABC CORPORATION", some "NYSE", some "Stock",
    some "2001-01-01", none, some "Active"⟩

/-- The same listing key with the dissimilar issuer name XYZ HOLDINGS. -/
def xyzRow : Row :=
  ⟨some "ABC", some "XYZ HOLDINGS", some "NYSE", some "Stock",
    some "2001-01-01", none, some "Active"⟩

/-- The ABC CORP row with only the IPO date changed. -/
def abcIpoRow : Row :=
  ⟨some "ABC", some "ABC CORP", some "NYSE", some "Stock",
    some "2001-02-15", none, some "Active"⟩

/-- An unrelated seed row with its own key. -/
def zRow : Row :=
  ⟨some "Z", some "Z INC", some "NYSE", some "Stock",
    some "2000-01-01", none, some "Active"⟩

/-- A malformed row: its symbol is missing. -/
def badRow : Row :=
  ⟨none, some "GHOST CO", some "NYSE", some "Stock", none, none, some "Active"⟩

/-- Nine times the letter A as an issuer name, under the key AAA. -/
def rowA : Row :=
  ⟨some "AAA", some "AAAAAAAAA", some "NYSE", some "Stock",
    some "2001-01-01", none, some "Active"⟩

/-- The same key with the name of rowA extended by two X: similarity to
rowA is eighteen twentieths, exactly the threshold. -/
def rowB : Row :=
  ⟨some "AAA", some "AAAAAAAAAXX", some "NYSE", some "Stock",
    some "2001-01-01", none, some "Active"⟩

/-- The same key with the name of rowA preceded by two Y: similar to rowA
(eighteen twentieths) but not to rowB (eighteen twentyseconds). -/
def rowC : Row :=
  ⟨some "AAA", some "YYAAAAAAAAA", some "NYSE", some "Stock",
    some "2001-01-01", none, some "Active"⟩

/-! General helper lemmas. -/

/-- A fold preserves any invariant its step preserves. -/
theorem foldl_invariant {α β : Type} (f : β → α → β) (P : β → Prop) :
    ∀ (l : List α) (init : β), P init → (∀ acc x, x ∈ l → P acc → P (f acc x)) →
      P (l.foldl f init) := by
  intro l
  induction l with
  | nil => intro init h _; exact h
  | cons x t ih =>
      intro init h hstep
      exact ih (f init x) (hstep init x (List.mem_cons_self x t) h)
        fun acc y hy => hstep acc y (List.mem_cons_of_mem x hy)

theorem commonPrefixLen_le_left : ∀ a b : List Char, commonPrefixLen a b ≤ a.length := by
  intro a
  induction a with
  | nil => intro b; cases b <;> simp [commonPrefixLen]
  | cons x xs ih =>
      intro b
      cases b with
      | nil => simp [commonPrefixLen]
      | cons y ys =>
          simp only [commonPrefixLen, List.length_cons]
          split
          · exact Nat.succ_le_succ (ih ys)
          · exact Nat.zero_le _

theorem commonPrefixLen_le_right : ∀ a b : List Char, commonPrefixLen a b ≤ b.length := by
  intro a
  induction a with
  | nil => intro b; cases b <;> simp [commonPrefixLen]
  | cons x xs ih =>
      intro b
      cases b with
      | nil => simp [commonPrefixLen]
      | cons y ys =>
          simp only [commonPrefixLen, List.length_cons]
          split
          · exact Nat.succ_le_succ (ih ys)
          · exact Nat.zero_le _

/-- The triple returned by find_longest_match stays inside both lists. -/
theorem flm_valid (a b : List Char) :
    (flm a b).1 + (flm a b).2.2 ≤ a.length ∧ (flm a b).2.1 + (flm a b).2.2 ≤ b.length := by
  unfold flm
  apply foldl_invariant _
    (fun best : Nat × Nat × Nat => best.1 + best.2.2 ≤ a.length ∧ best.2.1 + best.2.2 ≤ b.length)
  · exact ⟨Nat.zero_le _, Nat.zero_le _⟩
  · intro acc i hi hacc
    apply foldl_invariant _
      (fun best : Nat × Nat × Nat => best.1 + best.2.2 ≤ a.length ∧ best.2.1 + best.2.2 ≤ b.length)
    · exact hacc
    · intro acc' j hj hacc'
      dsimp only
      split
      · refine ⟨?_, ?_⟩
        · show i + commonPrefixLen (a.drop i) (b.drop j) ≤ a.length
          have hk := commonPrefixLen_le_left (a.drop i) (b.drop j)
          rw [List.length_drop] at hk
          have hi' : i < a.length := List.mem_range.mp hi
          omega
        · show j + commonPrefixLen (a.drop i) (b.drop j) ≤ b.length
          have hk := commonPrefixLen_le_right (a.drop i) (b.drop j)
          rw [List.length_drop] at hk
          have hj' : j < b.length := List.mem_range.mp hj
          omega
      · exact hacc'

/-- The matched total never exceeds either length, whatever the fuel. -/
theorem matchTotalF_le : ∀ (n : Nat) (a b : List Char),
    matchTotalF n a b ≤ a.length ∧ matchTotalF n a b ≤ b.length := by
  intro n
  induction n with
  | zero => intro a b; simp [matchTotalF]
  | succ m ih =>
      intro a b
      rw [matchTotalF]
      split
      · simp
      · obtain ⟨hL1, hL2⟩ := ih (a.take (flm a b).1) (b.take (flm a b).2.1)
        obtain ⟨hR1, hR2⟩ := ih (a.drop ((flm a b).1 + (flm a b).2.2))
          (b.drop ((flm a b).2.1 + (flm a b).2.2))
        obtain ⟨hv1, hv2⟩ := flm_valid a b
        rw [List.length_take] at hL1 hL2
        rw [List.length_drop] at hR1 hR2
        constructor
        · have h1 : matchTotalF m (a.take (flm a b).1) (b.take (flm a b).2.1) ≤ (flm a b).1 :=
            le_trans hL1 (by omega)
          omega
        · have h2 : matchTotalF m (a.take (flm a b).1) (b.take (flm a b).2.1) ≤ (flm a b).2.1 :=
            le_trans hL2 (by omega)
          omega

theorem matchTotal_le (a b : List Char) :
    matchTotal a b ≤ a.length ∧ matchTotal a b ≤ b.length :=
  matchTotalF_le (a.length + b.length) a b

/-- The SequenceMatcher ratio is at least zero. -/
theorem smRatio_nonneg (a b : List Char) : 0 ≤ smRatio a b := by
  unfold smRatio
  split
  · norm_num
  · rw [Rat.mkRat_eq_div]
    positivity

/-- The SequenceMatcher ratio is at most one. -/
theorem smRatio_le_one (a b : List Char) : smRatio a b ≤ 1 := by
  unfold smRatio
  split
  · norm_num
  · next h =>
      rw [Rat.mkRat_eq_div]
      rw [div_le_one (by positivity)]
      obtain ⟨h1, h2⟩ := matchTotal_le a b
      push_cast
      have : 2 * matchTotal a b ≤ a.length + b.length := by omega
      exact_mod_cast this

/-! Key and matching helper lemmas. -/

/-- Pandas equality is transitive towards a common right-hand side. -/
theorem pdEq_trans {x y z : Option String} (h1 : pdEq x z = true) (h2 : pdEq y z = true) :
    pdEq x y = true := by
  cases x <;> cases y <;> cases z <;> simp_all [pdEq]

/-- A present value compares equal to itself under pandas equality. -/
theorem pdEq_self {x : Option String} (h : x.isSome) : pdEq x x = true := by
  cases x with
  | none => simp at h
  | some s => simp [pdEq]

/-- Two rows that both key-match a third key-match each other. -/
theorem keyEq_trans {a b r : Row} (h1 : keyEq a r = true) (h2 : keyEq b r = true) :
    keyEq a b = true := by
  unfold keyEq at *
  rw [Bool.and_eq_true] at h1 h2 ⊢
  exact ⟨pdEq_trans h1.1 h2.1, pdEq_trans h1.2 h2.2⟩

/-- A row with present symbol and exchange key-matches itself. -/
theorem keyEq_self {r : Row} (h1 : r.symbol.isSome) (h2 : r.exchange.isSome) :
    keyEq r r = true := by
  unfold keyEq
  rw [Bool.and_eq_true]
  exact ⟨pdEq_self h1, pdEq_self h2⟩

/-- A row with a missing symbol never appears key-equal on the right. -/
theorem keyEq_none_right {m r : Row} (h : r.symbol = none) : keyEq m r = false := by
  unfold keyEq
  rw [h]
  cases m.symbol <;> simp [pdEq]

/-- A row never differs from itself. -/
theorem row_diffs_self (r : Row) : row_diffs r r = [] := by
  unfold row_diffs
  rw [List.filterMap_eq_nil_iff]
  intro col _
  dsimp only
  split
  · rfl
  · rw [if_neg]; simp

/-- A row with a missing symbol has an empty candidate set. -/
theorem candidates_none (merged : List Row) {r : Row} (h : r.symbol = none) :
    candidates merged r = [] := by
  unfold candidates
  rw [List.filter_eq_nil_iff]
  intro m _
  simp [keyEq_none_right h]

/-! Case analysis of processRow. -/

/-- An incoming row with no candidate is appended, with no conflict. -/
theorem processRow_nil {merged : List Row} {r : Row} (src : String)
    (hc : candidates merged r = []) :
    processRow merged src r = (merged ++ [r], none) := by
  unfold processRow
  split
  · rfl
  · next c cs heq => rw [hc] at heq; cases heq

/-- An incoming row with a matching candidate leaves the state unchanged. -/
theorem processRow_matched {merged : List Row} {r c : Row} (src : String)
    (hc : c ∈ candidates merged r) (hm : matchesB c r = true) :
    processRow merged src r = (merged, none) := by
  unfold processRow
  split
  · next heq => rw [heq] at hc; cases hc
  · next c' cs heq =>
      rw [if_pos]
      rw [heq] at hc
      exact List.any_eq_true.mpr ⟨c, hc, hm⟩

/-- An incoming row with candidates but no match leaves the table
unchanged and yields the conflict built from the first candidate and the
full candidate set. -/
theorem processRow_conflict {merged : List Row} {r c : Row} {cs : List Row} (src : String)
    (hc : candidates merged r = c :: cs)
    (hnm : ∀ x ∈ c :: cs, matchesB x r = false) :
    processRow merged src r =
      (merged, some ⟨r.symbol, r.exchange, src, row_diffs c r, c :: cs, r⟩) := by
  unfold processRow
  split
  · next heq => rw [hc] at heq; cases heq
  · next c' cs' heq =>
      rw [hc] at heq
      cases heq
      rw [if_neg]
      intro hany
      obtain ⟨x, hx, hmx⟩ := List.any_eq_true.mp hany
      rw [hnm x hx] at hmx
      cases hmx

/-- The table after a row step is the old table or the old table with the
incoming row appended at the end. -/
theorem processRow_table_cases (merged : List Row) (src : String) (r : Row) :
    (processRow merged src r).1 = merged ∨ (processRow merged src r).1 = merged ++ [r] := by
  unfold processRow
  split
  · right; rfl
  · split <;> (left; rfl)

/-- A row step never emits more than one conflict, and emits none when it
appends. -/
theorem processRow_conflict_cases (merged : List Row) (src : String) (r : Row) :
    ((processRow merged src r).1 = merged ++ [r] ∧ (processRow merged src r).2 = none) ∨
      (processRow merged src r).1 = merged := by
  unfold processRow
  split
  · left; exact ⟨rfl, rfl⟩
  · split <;> (right; rfl)

/-- A row always matches itself: its self-diff is empty. -/
theorem matchesB_self (r : Row) : matchesB r r = true := by
  simp [matchesB, row_diffs_self]

/-- Replaying rows of the current table against it changes nothing when
every replayed row has a present key. -/
theorem foldl_stepRow_self (src : String) (S : List Row) (c : List ConflictRecord)
    (hkeys : ∀ r ∈ S, r.symbol.isSome ∧ r.exchange.isSome) :
    ∀ l : List Row, (∀ r ∈ l, r ∈ S) → l.foldl (stepRow src) (S, c) = (S, c) := by
  intro l
  induction l with
  | nil => intro _; rfl
  | cons r t ih =>
      intro hsub
      have hrS : r ∈ S := hsub r (List.mem_cons_self r t)
      have hks := hkeys r hrS
      have hcand : r ∈ candidates S r :=
        List.mem_filter.mpr ⟨hrS, keyEq_self hks.1 hks.2⟩
      have hstep : stepRow src (S, c) r = (S, c) := by
        unfold stepRow
        rw [processRow_matched src hcand (matchesB_self r)]
        simp
      rw [List.foldl_cons, hstep]
      exact ih fun x hx => hsub x (List.mem_cons_of_mem _ hx)

/-- Membership characterization of the field-level diff list. -/
theorem row_diffs_entry (a b : Row) (col : Field) :
    (col, a.get col, b.get col) ∈ row_diffs a b ↔
      ((a.get col).isNone && (b.get col).isNone) = false ∧
        strVal (a.get col) ≠ strVal (b.get col) := by
  unfold row_diffs
  rw [List.mem_filterMap]
  constructor
  · rintro ⟨c, -, hc⟩
    dsimp only at hc
    split at hc
    · cases hc
    · next h1 =>
        split at hc
        · next h2 =>
            injection hc with hc'
            have hcol : c = col := congrArg (fun p => p.1) hc'
            subst hcol
            exact ⟨Bool.of_not_eq_true h1, h2⟩
        · cases hc
  · rintro ⟨h1, h2⟩
    refine ⟨col, ?_, ?_⟩
    · cases col <;> simp [Field.all]
    · dsimp only
      rw [if_neg (by rw [h1]; simp), if_pos h2]

/-! Claim theorems. -/

/-- C1: an incoming row with a non-empty candidate set none of whose
candidates satisfies the no-diff, IPO-date-only or name-similarity rule
produces exactly one conflict record, whose diff basis is the first
candidate in table order and whose existing rows are the full matched-key
row set, and the merged table is unchanged by that row. -/
theorem C1_unmatched_conflict (merged : List Row) (src : String) (r c : Row) (cs : List Row)
    (hc : candidates merged r = c :: cs)
    (hnm : ∀ x ∈ c :: cs, matchesB x r = false) :
    processRow merged src r =
      (merged, some ⟨r.symbol, r.exchange, src, row_diffs c r, c :: cs, r⟩) :=
  processRow_conflict src hc hnm

/-- Witness for C1 at a concrete input: one candidate with the same key
and a dissimilar name yields the conflict built from that candidate. -/
theorem C1_unmatched_conflict_witness :
    processRow [abcCorpRow] "s2" xyzRow =
      ([abcCorpRow], some ⟨xyzRow.symbol, xyzRow.exchange, "s2",
        row_diffs abcCorpRow xyzRow, [abcCorpRow], xyzRow⟩) :=
  C1_unmatched_conflict [abcCorpRow] "s2" xyzRow abcCorpRow [] (by decide) (by decide)

/-- C6: the field-level diff of two rows contains a field exactly when
the two values differ as rendered strings and at least one of the two
values is present; in particular two missing values never record a diff. -/
theorem C6_diff_characterization (a b : Row) (col : Field) :
    (col, a.get col, b.get col) ∈ row_diffs a b ↔
      strVal (a.get col) ≠ strVal (b.get col) ∧
        ((a.get col).isSome ∨ (b.get col).isSome) := by
  rw [row_diffs_entry]
  cases a.get col <;> cases b.get col <;> simp

/-- C7: an incoming row for which some candidate with the same key
differs from it exactly in the IPO date is treated as the same security:
the table is unchanged and no conflict is recorded. -/
theorem C7_ipoDateOnly_matched (merged : List Row) (src : String) (r c : Row)
    (hc : c ∈ candidates merged r)
    (hd : ipoDateOnly (row_diffs c r) = true) :
    processRow merged src r = (merged, none) := by
  have hne : (row_diffs c r).isEmpty = false := by
    unfold ipoDateOnly at hd
    rw [Bool.and_eq_true] at hd
    have h1 := hd.1
    cases hempty : (row_diffs c r).isEmpty
    · rfl
    · rw [hempty] at h1; cases h1
  have hm : matchesB c r = true := by
    unfold matchesB
    simp [hne, hd]
  exact processRow_matched src hc hm

/-- Witness for C7 at a concrete input: a row differing from the stored
one only in the IPO date is matched, with no new row and no conflict. -/
theorem C7_ipoDateOnly_matched_witness :
    processRow [abcCorpRow] "s2" abcIpoRow = ([abcCorpRow], none) :=
  C7_ipoDateOnly_matched [abcCorpRow] "s2" abcIpoRow abcCorpRow (by decide) (by decide)

/-- C10: processing one incoming row never modifies a row already in the
merged table: the step either appends the incoming row verbatim at the
end or returns the table exactly unchanged. -/
theorem C10_no_mutation (merged : List Row) (src : String) (r : Row) :
    (processRow merged src r).1 = merged ∨ (processRow merged src r).1 = merged ++ [r] :=
  processRow_table_cases merged src r

/-- C2 counterexample: the normalized similarity of ABC CORP and
ABC CORPORATION is sixteen twenty-thirds, below nine tenths, and the
incoming ABC CORPORATION row is not matched: it produces a conflict. -/
theorem C2_counterexample :
    name_similarity (normalize_name (some "ABC CORP"))
        (normalize_name (some "ABC CORPORATION")) < 9 / 10 ∧
    (processRow [abcCorpRow] "s2" abcCorporationRow).2.isSome = true := by
  constructor
  · have h : name_similarity (normalize_name (some "ABC CORP"))
        (normalize_name (some "ABC CORPORATION")) = mkRat 16 23 := by decide
    rw [h, Rat.mkRat_eq_div]
    norm_num
  · decide

/-- C2 amended: both name pairs fall below the 0.90 threshold, so both
incoming rows are unmatched; each produces exactly one conflict record
whose field diffs contain the name key, and neither is inserted. -/
theorem C2_similarity_threshold :
    name_similarity (normalize_name (some "ABC CORP"))
        (normalize_name (some "ABC CORPORATION")) = 16 / 23 ∧
    reconcile [("s1", [abcCorpRow]), ("s2", [abcCorporationRow])] =
      ([abcCorpRow], [⟨some "ABC", some "NYSE", "s2",
        [(Field.name, some "ABC CORP", some "ABC CORPORATION")],
        [abcCorpRow], abcCorporationRow⟩]) ∧
    name_similarity (normalize_name (some "ABC CORP"))
        (normalize_name (some "XYZ HOLDINGS")) = 1 / 5 ∧
    reconcile [("s1", [abcCorpRow]), ("s2", [xyzRow])] =
      ([abcCorpRow], [⟨some "ABC", some "NYSE", "s2",
        [(Field.name, some "ABC CORP", some "XYZ HOLDINGS")],
        [abcCorpRow], xyzRow⟩]) := by
  refine ⟨?_, by decide, ?_, by decide⟩
  · have h : name_similarity (normalize_name (some "ABC CORP"))
        (normalize_name (some "ABC CORPORATION")) = mkRat 16 23 := by decide
    rw [h, Rat.mkRat_eq_div]
    norm_num
  · have h : name_similarity (normalize_name (some "ABC CORP"))
        (normalize_name (some "XYZ HOLDINGS")) = mkRat 1 5 := by decide
    rw [h, Rat.mkRat_eq_div]
    norm_num

/-- C3 counterexample: a row with a missing symbol is appended to the
merged table rather than skipped, so a snapshot with one malformed row
among zero valid ones contributes one merged row, not zero. -/
theorem C3_counterexample :
    badRow ∈ (reconcile [("s1", [zRow]), ("s2", [badRow])]).1 ∧
    (reconcile [("s1", [zRow]), ("s2", [badRow])]).1 = [zRow, badRow] ∧
    (reconcile [("s1", [zRow]), ("s2", [badRow])]).2 = [] := by decide

/-- C3 amended: a malformed row (missing symbol) does not terminate the
pass and produces no conflict, but it is appended to the merged table as
a new row, because a missing key compares equal to nothing and its
candidate set is therefore empty. -/
theorem C3_malformed_appended (merged : List Row) (src : String) (r : Row)
    (h : r.symbol = none) :
    processRow merged src r = (merged ++ [r], none) :=
  processRow_nil src (candidates_none merged h)

/-- Witness for the amended C3 at a concrete input. -/
theorem C3_malformed_appended_witness :
    processRow [zRow] "s2" badRow = ([zRow, badRow], none) :=
  C3_malformed_appended [zRow] "s2" badRow rfl

/-- C4 counterexample: for a snapshot holding one row with a missing
symbol, reconciling the snapshot twice yields a two-row table while
reconciling it once yields one row, so the tables are not identical. -/
theorem C4_counterexample :
    (reconcile [("a", [badRow]), ("b", [badRow])]).1 ≠ (reconcile [("a", [badRow])]).1 ∧
    (reconcile [("a", [badRow]), ("b", [badRow])]).1 = [badRow, badRow] ∧
    (reconcile [("a", [badRow])]).1 = [badRow] := by decide

/-- C4 amended: for a snapshot all of whose rows carry a present symbol
and a present exchange, reconciling the snapshot twice equals
reconciling it once, with zero conflicts: every row of the second pass
finds itself among its candidates and matches under the no-diff rule. -/
theorem C4_idempotent_of_keys_present (src1 src2 : String) (S : List Row)
    (h : ∀ r ∈ S, r.symbol.isSome ∧ r.exchange.isSome) :
    reconcile [(src1, S), (src2, S)] = reconcile [(src1, S)] ∧
    (reconcile [(src1, S), (src2, S)]).2 = [] := by
  have h1 : reconcile [(src1, S)] = (S, []) := rfl
  have h2 : reconcile [(src1, S), (src2, S)] = (S, []) := by
    show stepSnap (stepSnap ([], []) (src1, S)) (src2, S) = (S, [])
    have hseed : stepSnap (([] : List Row), ([] : List ConflictRecord)) (src1, S) = (S, []) := rfl
    rw [hseed]
    cases S with
    | nil => rfl
    | cons s t =>
        unfold stepSnap
        rw [if_neg (by simp)]
        exact foldl_stepRow_self src2 (s :: t) [] h (s :: t) (fun x hx => hx)
  rw [h1, h2]
  exact ⟨rfl, rfl⟩

/-- Witness for the amended C4 at a concrete input. -/
theorem C4_idempotent_witness :
    reconcile [("a", [zRow]), ("b", [zRow])] = reconcile [("a", [zRow])] ∧
    (reconcile [("a", [zRow]), ("b", [zRow])]).2 = [] :=
  C4_idempotent_of_keys_present "a" "b" [zRow] (by decide)

/-- C5 counterexample: permuting the rows of one snapshot that holds
three rows sharing one key changes the final merged table and changes
the conflict count from zero to one. -/
theorem C5_counterexample :
    ([rowB, rowC, rowA]).Perm [rowA, rowB, rowC] ∧
    (reconcile [("s1", [zRow]), ("s2", [rowA, rowB, rowC])]).2.length = 0 ∧
    (reconcile [("s1", [zRow]), ("s2", [rowB, rowC, rowA])]).2.length = 1 ∧
    (reconcile [("s1", [zRow]), ("s2", [rowA, rowB, rowC])]).1 ≠
      (reconcile [("s1", [zRow]), ("s2", [rowB, rowC, rowA])]).1 := by decide

/-! Lemmas on the normalization pipeline, for C8. -/

/-- Collapsing space runs introduces no new character. -/
theorem mem_collapseSpaces {c : Char} : ∀ {l : List Char}, c ∈ collapseSpaces l → c ∈ l := by
  intro l
  induction l with
  | nil => intro h; exact h
  | cons a t ih =>
      cases t with
      | nil => intro h; exact h
      | cons b t2 =>
          intro h
          rw [collapseSpaces] at h
          split at h
          · exact List.mem_cons_of_mem a (ih h)
          · rcases List.mem_cons.mp h with h1 | h2
            · exact List.mem_cons.mpr (Or.inl h1)
            · exact List.mem_cons_of_mem a (ih h2)

/-- Collapsing space runs keeps the first character. -/
theorem head?_collapseSpaces : ∀ l : List Char, (collapseSpaces l).head? = l.head? := by
  intro l
  induction l with
  | nil => rfl
  | cons a t ih =>
      cases t with
      | nil => rfl
      | cons b t2 =>
          rw [collapseSpaces]
          split
          · next hab =>
              rw [Bool.and_eq_true] at hab
              have ha : a = ' ' := by have := hab.1; simpa using this
              have hb : b = ' ' := by have := hab.2; simpa using this
              rw [ih]
              simp [ha, hb]
          · simp

/-- After collapsing, no two adjacent characters are both spaces. -/
theorem chain'_collapseSpaces : ∀ l : List Char,
    List.Chain' (fun x y => ¬(x = ' ' ∧ y = ' ')) (collapseSpaces l) := by
  intro l
  induction l with
  | nil => simp [collapseSpaces]
  | cons a t ih =>
      cases t with
      | nil => simp [collapseSpaces]
      | cons b t2 =>
          rw [collapseSpaces]
          split
          · exact ih
          · next hab =>
              rw [List.chain'_cons']
              refine ⟨?_, ih⟩
              intro y hy
              rw [head?_collapseSpaces] at hy
              simp only [List.head?_cons, Option.mem_def, Option.some.injEq] at hy
              subst hy
              intro hcon
              apply hab
              rw [Bool.and_eq_true]
              constructor <;> simp [hcon.1, hcon.2]

/-- Trimming introduces no new character. -/
theorem mem_trimSpaces {c : Char} {l : List Char} (h : c ∈ trimSpaces l) : c ∈ l := by
  unfold trimSpaces at h
  rw [List.mem_reverse] at h
  have h2 := (List.dropWhile_suffix (fun x => x == ' ')).mem h
  rw [List.mem_reverse] at h2
  exact (List.dropWhile_suffix (fun x => x == ' ')).mem h2

/-- Trimming preserves the no-double-space property. -/
theorem chain'_trimSpaces {l : List Char}
    (h : List.Chain' (fun x y => ¬(x = ' ' ∧ y = ' ')) l) :
    List.Chain' (fun x y => ¬(x = ' ' ∧ y = ' ')) (trimSpaces l) := by
  unfold trimSpaces
  rw [List.chain'_reverse]
  have h1 : List.Chain' (fun x y => ¬(x = ' ' ∧ y = ' '))
      (l.dropWhile (fun x => x == ' ')) :=
    h.suffix (List.dropWhile_suffix _)
  have h2 : List.Chain' (flip fun x y => ¬(x = ' ' ∧ y = ' '))
      ((l.dropWhile (fun x => x == ' ')).reverse) :=
    List.chain'_reverse.mpr h1
  exact h2.suffix (List.dropWhile_suffix (fun x => x == ' '))

/-- The trimmed list does not start with a space. -/
theorem head?_trimSpaces_ne_space (l : List Char) : (trimSpaces l).head? ≠ some ' ' := by
  unfold trimSpaces
  rw [List.head?_reverse]
  cases heq : ((l.dropWhile (fun x => x == ' ')).reverse.dropWhile (fun x => x == ' ')) with
  | nil => simp
  | cons x xs =>
      have hsuf : (l.dropWhile (fun x => x == ' ')).reverse.dropWhile (fun x => x == ' ') <:+
          (l.dropWhile (fun x => x == ' ')).reverse :=
        List.dropWhile_suffix _
      rw [heq] at hsuf
      obtain ⟨pre, hpre⟩ := hsuf
      have hlast : ((l.dropWhile (fun x => x == ' ')).reverse).getLast? = (x :: xs).getLast? := by
        rw [← hpre]
        exact List.getLast?_append_of_ne_nil pre (by simp)
      rw [← hlast, List.getLast?_reverse]
      have hh := List.head?_dropWhile_not (fun x => x == ' ') l
      cases hd : (l.dropWhile (fun x => x == ' ')).head? with
      | none => simp
      | some y =>
          rw [hd] at hh
          have hh2 : (y == ' ') = false := hh
          intro hcon
          have hy : y = ' ' := by injection hcon
          rw [hy] at hh2
          simp at hh2

/-- The trimmed list does not end with a space. -/
theorem getLast?_trimSpaces_ne_space (l : List Char) : (trimSpaces l).getLast? ≠ some ' ' := by
  unfold trimSpaces
  rw [List.getLast?_reverse]
  have hh := List.head?_dropWhile_not (fun x => x == ' ')
    ((l.dropWhile (fun x => x == ' ')).reverse)
  cases hd : ((l.dropWhile (fun x => x == ' ')).reverse.dropWhile (fun x => x == ' ')).head? with
  | none => simp
  | some y =>
      rw [hd] at hh
      have hh2 : (y == ' ') = false := hh
      intro hcon
      have hy : y = ' ' := by injection hcon
      rw [hy] at hh2
      simp at hh2

/-- C8: normalization of any name yields a string made only of uppercase
letters, digits and single spaces, with no leading or trailing space and
no two adjacent spaces; the similarity of two normalized names is the
Ratcliff-Obershelp matching-character ratio inside the closed unit
interval, one when both are empty, zero when exactly one is empty. -/
theorem C8_normalize_and_similarity :
    (∀ v : Option String,
        (∀ c ∈ (normalize_name v).toList, isAllowed c = true) ∧
        (normalize_name v).toList.head? ≠ some ' ' ∧
        (normalize_name v).toList.getLast? ≠ some ' ' ∧
        List.Chain' (fun x y => ¬(x = ' ' ∧ y = ' ')) (normalize_name v).toList) ∧
    (∀ a b : String, 0 ≤ name_similarity a b ∧ name_similarity a b ≤ 1) ∧
    name_similarity "" "" = 1 ∧
    (∀ a : String, a ≠ "" → name_similarity a "" = 0 ∧ name_similarity "" a = 0) := by
  refine ⟨?_, ?_, ?_, ?_⟩
  · intro v
    cases v with
    | none => refine ⟨?_, ?_, ?_, ?_⟩ <;> simp [normalize_name]
    | some s =>
        have htl : (normalize_name (some s)).toList =
            trimSpaces (collapseSpaces ((s.toList.map Char.toUpper).filter isAllowed)) := rfl
        rw [htl]
        refine ⟨?_, head?_trimSpaces_ne_space _, getLast?_trimSpaces_ne_space _,
          chain'_trimSpaces (chain'_collapseSpaces _)⟩
        intro c hc
        exact List.of_mem_filter (mem_collapseSpaces (mem_trimSpaces hc))
  · intro a b
    unfold name_similarity
    split
    · norm_num
    · split
      · norm_num
      · exact ⟨smRatio_nonneg _ _, smRatio_le_one _ _⟩
  · rfl
  · intro a ha
    constructor
    · unfold name_similarity
      rw [if_neg (by simp [ha]), if_pos (by simp)]
    · unfold name_similarity
      rw [if_neg (by simp [ha]), if_pos (by simp)]

/-- Witness for C8 at concrete inputs: one-sided emptiness gives zero
similarity, the ratio is nonnegative, and a normalized name holds only
allowed characters. -/
theorem C8_normalize_witness :
    name_similarity "ABC" "" = 0 ∧
    0 ≤ name_similarity "ABC CORP" "XYZ HOLDINGS" ∧
    ∀ c ∈ (normalize_name (some "  Abc- Corp  ")).toList, isAllowed c = true :=
  ⟨(C8_normalize_and_similarity.2.2.2 "ABC" (by decide)).1,
   (C8_normalize_and_similarity.2.1 "ABC CORP" "XYZ HOLDINGS").1,
   (C8_normalize_and_similarity.1 (some "  Abc- Corp  ")).1⟩

/-! Key-uniqueness invariant machinery, for C9. -/

/-- One row step preserves pairwise key distinctness: a row is appended
only when no current row key-matches it. -/
theorem pairwise_processRow {merged : List Row} (src : String) (r : Row)
    (h : List.Pairwise (fun a b => keyEq a b = false) merged) :
    List.Pairwise (fun a b => keyEq a b = false) (processRow merged src r).1 := by
  unfold processRow
  split
  · next heq =>
      unfold candidates at heq
      rw [List.filter_eq_nil_iff] at heq
      show List.Pairwise (fun a b => keyEq a b = false) (merged ++ [r])
      rw [List.pairwise_append]
      refine ⟨h, List.pairwise_singleton _ _, ?_⟩
      intro a ha b hb
      rw [List.mem_singleton] at hb
      subst hb
      have := heq a ha
      exact Bool.not_eq_true _ ▸ (Bool.eq_false_iff.mpr fun htrue => this htrue)
  · split <;> exact h

/-- A pairwise key-distinct table yields candidate sets of size at most
one for every incoming row. -/
theorem candidates_length_le_one {T : List Row}
    (h : List.Pairwise (fun a b => keyEq a b = false) T) (r : Row) :
    (candidates T r).length ≤ 1 := by
  have hpw : List.Pairwise (fun a b => keyEq a b = false) (candidates T r) :=
    List.Pairwise.filter _ h
  cases hc : candidates T r with
  | nil => simp
  | cons x xs =>
      cases xs with
      | nil => simp
      | cons y ys =>
          exfalso
          rw [hc] at hpw
          have hxy : keyEq x y = false :=
            (List.pairwise_cons.mp hpw).1 y (List.mem_cons_self y ys)
          have hx : keyEq x r = true := by
            have hm : x ∈ T.filter (fun m => keyEq m r) := by
              show x ∈ candidates T r
              rw [hc]; exact List.mem_cons_self _ _
            exact (List.mem_filter.mp hm).2
          have hy : keyEq y r = true := by
            have hm : y ∈ T.filter (fun m => keyEq m r) := by
              show y ∈ candidates T r
              rw [hc]; exact List.mem_cons_of_mem _ (List.mem_cons_self _ _)
            exact (List.mem_filter.mp hm).2
          rw [keyEq_trans hx hy] at hxy
          cases hxy

/-- The per-row fold preserves pairwise key distinctness, both at the end
and at every intermediate table. -/
theorem statesRows_pairwise (src : String) :
    ∀ (rows : List Row) (st : St),
      List.Pairwise (fun a b => keyEq a b = false) st.1 →
      (∀ T ∈ statesRows src st rows, List.Pairwise (fun a b => keyEq a b = false) T) ∧
        List.Pairwise (fun a b => keyEq a b = false) (rows.foldl (stepRow src) st).1 := by
  intro rows
  induction rows with
  | nil =>
      intro st h
      refine ⟨?_, h⟩
      intro T hT
      cases hT
  | cons r t ih =>
      intro st h
      have h' : List.Pairwise (fun a b => keyEq a b = false) (stepRow src st r).1 :=
        pairwise_processRow src r h
      obtain ⟨ih1, ih2⟩ := ih (stepRow src st r) h'
      constructor
      · intro T hT
        rw [statesRows] at hT
        rcases List.mem_cons.mp hT with h1 | h2
        · rw [h1]; exact h'
        · exact ih1 T h2
      · rw [List.foldl_cons]; exact ih2

/-- A nonempty table stays nonempty through the per-row fold. -/
theorem foldl_stepRow_ne_nil (src : String) :
    ∀ (rows : List Row) (st : St), st.1 ≠ [] → (rows.foldl (stepRow src) st).1 ≠ [] := by
  intro rows
  induction rows with
  | nil => intro st h; exact h
  | cons r t ih =>
      intro st h
      rw [List.foldl_cons]
      apply ih
      show (processRow st.1 src r).1 ≠ []
      rcases processRow_table_cases st.1 src r with h1 | h1 <;> rw [h1]
      · exact h
      · simp

/-- Every intermediate table of the later snapshots is pairwise
key-distinct when the entering table is. -/
theorem statesAll_pairwise :
    ∀ (snaps : List (String × List Row)) (st : St), st.1 ≠ [] →
      List.Pairwise (fun a b => keyEq a b = false) st.1 →
      ∀ T ∈ statesAll st snaps, List.Pairwise (fun a b => keyEq a b = false) T := by
  intro snaps
  induction snaps with
  | nil => intro st _ _ T hT; cases hT
  | cons s ss ih =>
      intro st hne hpw T hT
      have hempty : st.1.isEmpty = false := by
        cases hs : st.1
        · exact absurd hs hne
        · rfl
      have hsnap : stepSnap st s = s.2.foldl (stepRow s.1) st := by
        unfold stepSnap
        rw [if_neg (by rw [hempty]; simp)]
      rw [statesAll, List.mem_append] at hT
      rcases hT with h1 | h2
      · rw [if_neg (by rw [hempty]; simp)] at h1
        exact (statesRows_pairwise s.1 s.2 st hpw).1 T h1
      · apply ih (stepSnap st s) ?_ ?_ T h2
        · rw [hsnap]; exact foldl_stepRow_ne_nil s.1 s.2 st hne
        · rw [hsnap]; exact (statesRows_pairwise s.1 s.2 st hpw).2

/-- C9: when the seed snapshot holds no two rows with an equal present
symbol-exchange key, every intermediate merged table of the run is
pairwise key-distinct, so the candidate set computed for any incoming row
has size at most one. -/
theorem C9_candidate_set_at_most_one (src₀ : String) (s₀ : List Row)
    (rest : List (String × List Row)) (hne : s₀ ≠ [])
    (hpw : List.Pairwise (fun a b => keyEq a b = false) s₀) :
    ∀ T ∈ statesAll ([], []) ((src₀, s₀) :: rest),
      List.Pairwise (fun a b => keyEq a b = false) T ∧
        ∀ r : Row, (candidates T r).length ≤ 1 := by
  intro T hT
  have hstep : statesAll ([], []) ((src₀, s₀) :: rest) = s₀ :: statesAll (s₀, []) rest := rfl
  rw [hstep] at hT
  rcases List.mem_cons.mp hT with h1 | h2
  · subst h1
    exact ⟨hpw, fun r => candidates_length_le_one hpw r⟩
  · have hpwT := statesAll_pairwise rest (s₀, []) hne hpw T h2
    exact ⟨hpwT, fun r => candidates_length_le_one hpwT r⟩

/-- Witness for C9 at a concrete input: the seed table is key-distinct
and the candidate set of an incoming row against it has size at most one. -/
theorem C9_candidate_witness :
    List.Pairwise (fun a b => keyEq a b = false) [zRow] ∧
      (candidates [zRow] xyzRow).length ≤ 1 := by
  have h := C9_candidate_set_at_most_one "s1" [zRow] [] (by decide)
    (by exact List.pairwise_singleton _ _) [zRow] (List.mem_cons_self _ _)
  exact ⟨h.1, h.2 xyzRow⟩

/-! Order-independence machinery, for C5. -/

/-- Candidate sets distribute over table concatenation. -/
theorem candidates_append (m ext : List Row) (r : Row) :
    candidates (m ++ ext) r = candidates m r ++ candidates ext r := by
  unfold candidates
  exact List.filter_append _ _

/-- Rows that key-clash with nothing contribute no candidates. -/
theorem candidates_nil_of_noclash {ext : List Row} {r : Row}
    (h : ∀ e ∈ ext, keyEq e r = false) : candidates ext r = [] := by
  unfold candidates
  rw [List.filter_eq_nil_iff]
  intro e he
  rw [h e he]
  simp

/-- Permuted lists agree on any. -/
theorem any_eq_of_perm {α : Type} {l l' : List α} (h : l.Perm l') (p : α → Bool) :
    l.any p = l'.any p := by
  cases ha : l'.any p
  · rw [List.any_eq_false] at ha ⊢
    intro x hx
    exact ha x (h.mem_iff.mp hx)
  · rw [List.any_eq_true] at ha ⊢
    obtain ⟨x, hx, hpx⟩ := ha
    exact ⟨x, h.mem_iff.mpr hx, hpx⟩

/-- Pandas equality of cell values is symmetric. -/
theorem pdEq_comm (x y : Option String) : pdEq x y = pdEq y x := by
  cases x with
  | none => cases y <;> rfl
  | some a =>
      cases y with
      | none => rfl
      | some b =>
          show (a == b) = (b == a)
          by_cases h : a = b
          · simp [h]
          · simp [beq_eq_false_iff_ne, h, Ne.symm h]

/-- Key equality of rows is symmetric. -/
theorem keyEq_comm (a b : Row) : keyEq a b = keyEq b a := by
  unfold keyEq
  rw [pdEq_comm a.symbol b.symbol, pdEq_comm a.exchange b.exchange]

/-- When no processed row key-clashes with any previously appended row of
the same snapshot, every row is decided against the table the snapshot
started from: the fold appends exactly the rows whose initial candidate
set was empty, and logs exactly the per-row conflicts computed against
the initial table. -/
theorem foldl_stepRow_distinct (src : String) (m : List Row) :
    ∀ (l ext : List Row) (c : List ConflictRecord),
      (∀ r ∈ l, ∀ e ∈ ext, keyEq e r = false) →
      List.Pairwise (fun a b => keyEq a b = false) l →
      l.foldl (stepRow src) (m ++ ext, c) =
        (m ++ ext ++ l.filter (fun r => (candidates m r).isEmpty),
          c ++ l.filterMap (fun r => (processRow m src r).2)) := by
  intro l
  induction l with
  | nil => intro ext c _ _; simp
  | cons r t ih =>
      intro ext c hext hpw
      have hce : candidates ext r = [] :=
        candidates_nil_of_noclash fun e he => hext r (List.mem_cons_self r t) e he
      have hcand : candidates (m ++ ext) r = candidates m r := by
        rw [candidates_append, hce, List.append_nil]
      have hpw' := (List.pairwise_cons.mp hpw).2
      rw [List.foldl_cons]
      cases hc : candidates m r with
      | nil =>
          have hp : (candidates m r).isEmpty = true := by rw [hc]; rfl
          have hpr2 : (processRow m src r).2 = none := by
            rw [processRow_nil src hc]
          have hstep : stepRow src (m ++ ext, c) r = (m ++ (ext ++ [r]), c) := by
            unfold stepRow
            rw [processRow_nil src (by rw [hcand, hc])]
            simp [List.append_assoc]
          have hext' : ∀ r' ∈ t, ∀ e ∈ ext ++ [r], keyEq e r' = false := by
            intro r' hr' e he
            rcases List.mem_append.mp he with h1 | h2
            · exact hext r' (List.mem_cons_of_mem r hr') e h1
            · rw [List.mem_singleton] at h2
              subst h2
              exact (List.pairwise_cons.mp hpw).1 r' hr'
          rw [hstep, ih (ext ++ [r]) c hext' hpw']
          simp only [List.filter_cons, List.filterMap_cons]
          rw [hp, hpr2]
          simp [List.append_assoc]
      | cons c0 cs =>
          have hp : (candidates m r).isEmpty = false := by rw [hc]; rfl
          have hext' : ∀ r' ∈ t, ∀ e ∈ ext, keyEq e r' = false :=
            fun r' hr' e he => hext r' (List.mem_cons_of_mem r hr') e he
          cases hany : (c0 :: cs).any (fun e => matchesB e r) with
          | true =>
              obtain ⟨x, hx, hmx⟩ := List.any_eq_true.mp hany
              have hxm : x ∈ candidates m r := by rw [hc]; exact hx
              have hxe : x ∈ candidates (m ++ ext) r := by rw [hcand, hc]; exact hx
              have hpr2 : (processRow m src r).2 = none := by
                rw [processRow_matched src hxm hmx]
              have hstep : stepRow src (m ++ ext, c) r = (m ++ ext, c) := by
                unfold stepRow
                rw [processRow_matched src hxe hmx]
                simp
              rw [hstep, ih ext c hext' hpw']
              simp only [List.filter_cons, List.filterMap_cons]
              rw [hp, hpr2]
              simp
          | false =>
              have hnm : ∀ x ∈ c0 :: cs, matchesB x r = false := by
                intro x hx
                have hfx := List.any_eq_false.mp hany x hx
                cases hb : matchesB x r
                · rfl
                · exact absurd hb hfx
              have hpr2 : (processRow m src r).2 =
                  some ⟨r.symbol, r.exchange, src, row_diffs c0 r, c0 :: cs, r⟩ := by
                rw [processRow_conflict src hc hnm]
              have hstep : stepRow src (m ++ ext, c) r =
                  (m ++ ext, c ++ [⟨r.symbol, r.exchange, src, row_diffs c0 r, c0 :: cs, r⟩]) := by
                unfold stepRow
                rw [processRow_conflict src (by rw [hcand]; exact hc) hnm]
                simp
              have hih := ih ext
                (c ++ [⟨r.symbol, r.exchange, src, row_diffs c0 r, c0 :: cs, r⟩]) hext' hpw'
              rw [hstep, hih]
              simp only [List.filter_cons, List.filterMap_cons]
              rw [hp, hpr2]
              simp

/-- One snapshot applied to the same table to two permuted, pairwise
key-distinct row lists yields permuted tables and equally many new
conflicts. -/
theorem stepSnap_perm_parts (src : String) (m : List Row) (c c' : List ConflictRecord)
    (l l' : List Row) (hperm : l.Perm l')
    (hpw : List.Pairwise (fun a b => keyEq a b = false) l)
    (hc : c.length = c'.length) :
    (stepSnap (m, c) (src, l)).1.Perm (stepSnap (m, c') (src, l')).1 ∧
      (stepSnap (m, c) (src, l)).2.length = (stepSnap (m, c') (src, l')).2.length := by
  by_cases hm : m = []
  · subst hm
    unfold stepSnap
    simp only [List.isEmpty_nil, if_true]
    exact ⟨hperm, hc⟩
  · have hme : m.isEmpty = false := by
      cases hx : m
      · exact absurd hx hm
      · rfl
    have hpw2 : List.Pairwise (fun a b => keyEq a b = false) l' :=
      (hperm.pairwise_iff fun hab => by rw [keyEq_comm]; exact hab).mp hpw
    unfold stepSnap
    rw [if_neg (by rw [hme]; simp), if_neg (by rw [hme]; simp)]
    have h1 := foldl_stepRow_distinct src m l [] c (by simp) hpw
    have h2 := foldl_stepRow_distinct src m l' [] c' (by simp) hpw2
    rw [List.append_nil] at h1 h2
    rw [h1, h2]
    constructor
    · exact (List.Perm.refl m).append (hperm.filter _)
    · simp only [List.length_append]
      rw [hc, (hperm.filterMap _).length_eq]

/-- One row step on permuted tables with equally long conflict logs
yields permuted tables and equally long logs. -/
theorem stepRow_perm (src : String) (r : Row) {T T' : List Row}
    {c c' : List ConflictRecord} (hT : T.Perm T') (hc : c.length = c'.length) :
    (stepRow src (T, c) r).1.Perm (stepRow src (T', c') r).1 ∧
      (stepRow src (T, c) r).2.length = (stepRow src (T', c') r).2.length := by
  have hcand : (candidates T r).Perm (candidates T' r) := hT.filter _
  cases hc1 : candidates T r with
  | nil =>
      have hc2 : candidates T' r = [] := by
        rw [hc1] at hcand
        exact hcand.symm.eq_nil
      have hs1 : stepRow src (T, c) r = (T ++ [r], c) := by
        unfold stepRow
        rw [processRow_nil src hc1]
        simp
      have hs2 : stepRow src (T', c') r = (T' ++ [r], c') := by
        unfold stepRow
        rw [processRow_nil src hc2]
        simp
      rw [hs1, hs2]
      exact ⟨hT.append (List.Perm.refl [r]), hc⟩
  | cons x xs =>
      cases hc2 : candidates T' r with
      | nil =>
          rw [hc1, hc2] at hcand
          cases hcand.eq_nil
      | cons y ys =>
          rw [hc1, hc2] at hcand
          have hany : (x :: xs).any (fun e => matchesB e r) =
              (y :: ys).any (fun e => matchesB e r) := any_eq_of_perm hcand _
          cases ha : (x :: xs).any (fun e => matchesB e r) with
          | true =>
              obtain ⟨u, hu, hmu⟩ := List.any_eq_true.mp ha
              obtain ⟨v, hv, hmv⟩ := List.any_eq_true.mp (hany.symm.trans ha)
              have hs1 : stepRow src (T, c) r = (T, c) := by
                unfold stepRow
                rw [processRow_matched src (by rw [hc1]; exact hu) hmu]
                simp
              have hs2 : stepRow src (T', c') r = (T', c') := by
                unfold stepRow
                rw [processRow_matched src (by rw [hc2]; exact hv) hmv]
                simp
              rw [hs1, hs2]
              exact ⟨hT, hc⟩
          | false =>
              have hb : (y :: ys).any (fun e => matchesB e r) = false := by
                rw [← hany]; exact ha
              have hnm1 : ∀ u ∈ x :: xs, matchesB u r = false := by
                intro u hu
                have hfx := List.any_eq_false.mp ha u hu
                cases hbu : matchesB u r
                · rfl
                · exact absurd hbu hfx
              have hnm2 : ∀ v ∈ y :: ys, matchesB v r = false := by
                intro v hv
                have hfx := List.any_eq_false.mp hb v hv
                cases hbv : matchesB v r
                · rfl
                · exact absurd hbv hfx
              have hs1 : stepRow src (T, c) r =
                  (T, c ++ [⟨r.symbol, r.exchange, src, row_diffs x r, x :: xs, r⟩]) := by
                unfold stepRow
                rw [processRow_conflict src hc1 hnm1]
                simp
              have hs2 : stepRow src (T', c') r =
                  (T', c' ++ [⟨r.symbol, r.exchange, src, row_diffs y r, y :: ys, r⟩]) := by
                unfold stepRow
                rw [processRow_conflict src hc2 hnm2]
                simp
              rw [hs1, hs2]
              refine ⟨hT, ?_⟩
              simp [hc]

/-- The per-row fold preserves table permutation and log-length equality. -/
theorem foldl_stepRow_perm (src : String) :
    ∀ (rows : List Row) {T T' : List Row} {c c' : List ConflictRecord},
      T.Perm T' → c.length = c'.length →
      (rows.foldl (stepRow src) (T, c)).1.Perm (rows.foldl (stepRow src) (T', c')).1 ∧
        (rows.foldl (stepRow src) (T, c)).2.length =
          (rows.foldl (stepRow src) (T', c')).2.length := by
  intro rows
  induction rows with
  | nil => intro T T' c c' hT hc; exact ⟨hT, hc⟩
  | cons r t ih =>
      intro T T' c c' hT hc
      obtain ⟨h1, h2⟩ := stepRow_perm src r hT hc
      rw [List.foldl_cons, List.foldl_cons]
      exact ih h1 h2

/-- Any later snapshot preserves table permutation and log-length
equality. -/
theorem stepSnap_perm_invariant (s : String × List Row) {T T' : List Row}
    {c c' : List ConflictRecord} (hT : T.Perm T') (hc : c.length = c'.length) :
    (stepSnap (T, c) s).1.Perm (stepSnap (T', c') s).1 ∧
      (stepSnap (T, c) s).2.length = (stepSnap (T', c') s).2.length := by
  by_cases h0 : T = []
  · have h0' : T' = [] := by
      rw [h0] at hT
      exact hT.symm.eq_nil
    subst h0; subst h0'
    unfold stepSnap
    simp only [List.isEmpty_nil, if_true]
    exact ⟨List.Perm.refl _, hc⟩
  · have h0' : T' ≠ [] := by
      intro hx
      rw [hx] at hT
      exact h0 hT.eq_nil
    have he : T.isEmpty = false := by
      cases hx : T
      · exact absurd hx h0
      · rfl
    have he' : T'.isEmpty = false := by
      cases hx : T'
      · exact absurd hx h0'
      · rfl
    unfold stepSnap
    rw [if_neg (by rw [he]; simp), if_neg (by rw [he']; simp)]
    exact foldl_stepRow_perm s.1 s.2 hT hc

/-- The remaining snapshots preserve table permutation and log-length
equality. -/
theorem foldl_stepSnap_perm :
    ∀ (suf : List (String × List Row)) {T T' : List Row} {c c' : List ConflictRecord},
      T.Perm T' → c.length = c'.length →
      (suf.foldl stepSnap (T, c)).1.Perm (suf.foldl stepSnap (T', c')).1 ∧
        (suf.foldl stepSnap (T, c)).2.length = (suf.foldl stepSnap (T', c')).2.length := by
  intro suf
  induction suf with
  | nil => intro T T' c c' hT hc; exact ⟨hT, hc⟩
  | cons s ss ih =>
      intro T T' c c' hT hc
      obtain ⟨h1, h2⟩ := stepSnap_perm_invariant s hT hc
      rw [List.foldl_cons, List.foldl_cons]
      exact ih h1 h2

/-- C5 amended: permuting the rows within one snapshot whose rows are
pairwise key-distinct leaves the final merged table unchanged up to row
order (a permutation) and leaves the conflict count unchanged; the
counterexample shows that with repeated keys inside the snapshot both
the table contents and the conflict count can change. -/
theorem C5_order_independence_amended (pre suf : List (String × List Row)) (src : String)
    (l l' : List Row) (hperm : l.Perm l')
    (hpw : List.Pairwise (fun a b => keyEq a b = false) l) :
    (reconcile (pre ++ (src, l) :: suf)).1.Perm (reconcile (pre ++ (src, l') :: suf)).1 ∧
      (reconcile (pre ++ (src, l) :: suf)).2.length =
        (reconcile (pre ++ (src, l') :: suf)).2.length := by
  unfold reconcile
  rw [List.foldl_append, List.foldl_append, List.foldl_cons, List.foldl_cons]
  have hst := stepSnap_perm_parts src (pre.foldl stepSnap ([], [])).1
    (pre.foldl stepSnap ([], [])).2 (pre.foldl stepSnap ([], [])).2 l l' hperm hpw rfl
  exact foldl_stepSnap_perm suf hst.1 hst.2

/-- Witness for the amended C5 at a concrete input: swapping two
distinct-key rows inside the only snapshot permutes the final table and
keeps the conflict count. -/
theorem C5_order_independence_witness :
    (reconcile ([] ++ ("a", [zRow, abcCorpRow]) :: [])).1.Perm
        (reconcile ([] ++ ("a", [abcCorpRow, zRow]) :: [])).1 ∧
      (reconcile ([] ++ ("a", [zRow, abcCorpRow]) :: [])).2.length =
        (reconcile ([] ++ ("a", [abcCorpRow, zRow]) :: [])).2.length :=
  C5_order_independence_amended [] [] "a" [zRow, abcCorpRow] [abcCorpRow, zRow]
    (by decide) (by decide)

end AVMerge
